import Mathlib

/-!
Shallow embedding of `src/torchio_monai_pytorch_lightning.py`
(`MedicalDecathlonDataModule` and `Model`), the data-assembly, splitting,
transform-pipeline and batching logic of the repository.

External library calls are modelled by their documented semantics:
`torch.utils.data.random_split`, `torch.randperm`, `pathlib.Path.glob`,
`torchio` transforms, `torch.utils.data.DataLoader`, and
`monai.utils.set_determinism`.  Machine floats of the source are modelled
as exact rationals; Python's `round` is round-half-to-even.
-/

namespace TorchioMonai

/-- A file name inside one directory (the last path component; the source
compares whole `pathlib.Path`s, but inside a fixed directory that ordering
coincides with the ordering of the final component). -/
abbrev FileName := String

/-- `tio.Subject`: a named mapping from role to an image reference.
Training subjects carry `image` and `label`; test subjects carry only
`image` (`label = none`). -/
structure Subject where
  image : FileName
  label : Option FileName
deriving DecidableEq, Repr

/-- A 3-D spatial shape, as returned by `Subject.spatial_shape`. -/
structure Shape3 where
  s0 : Nat
  s1 : Nat
  s2 : Nat
deriving DecidableEq, Repr

/-- Componentwise maximum of two shapes. -/
def shapeMax (a b : Shape3) : Shape3 :=
  ⟨max a.s0 b.s0, max a.s1 b.s1, max a.s2 b.s2⟩

/-- `np.array(shapes).max(axis=0)`: the per-axis maximum of a list of
shapes (the source only evaluates it on nonempty lists; on `[]` numpy
raises, here the fold returns the zero shape). -/
def npMaxAxis0 (shapes : List Shape3) : Shape3 :=
  shapes.foldl shapeMax ⟨0, 0, 0⟩

/-- `MedicalDecathlonDataModule.get_max_shape`: per-axis maximum of the
spatial shapes of a list of subjects.  Loading an image from disk to read
its shape is modelled by the ambient map `spatial_shape`. -/
def get_max_shape (spatial_shape : Subject → Shape3) (subjects : List Subject) : Shape3 :=
  npMaxAxis0 (subjects.map spatial_shape)

/-- Whether a character list begins with the given pattern. -/
def beginsWith : List Char → List Char → Bool
  | [], _ => true
  | _ :: _, [] => false
  | p :: ps, c :: cs => p == c && beginsWith ps cs

/-- Whether a character list contains the given pattern as a contiguous
substring. -/
def containsSub (pat : List Char) : List Char → Bool
  | [] => beginsWith pat []
  | c :: cs => beginsWith pat (c :: cs) || containsSub pat cs

/-- Whether a file name matches the glob pattern `*.nii*`
(i.e. contains the substring `.nii`; `fnmatch` translates the pattern to
the regex `.*\.nii.*`). -/
def matchesNiiGlob (name : FileName) : Bool :=
  containsSub (".nii".data) name.data

/-- Whether `p.name.startswith('.')`. -/
def isHiddenFile (name : FileName) : Bool :=
  match name.data with
  | '.' :: _ => true
  | _ => false

/-- Code-point lexicographic comparison of character lists; Python's
`sorted` on strings (and on `pathlib.Path`s sharing a parent directory)
orders by Unicode code point in exactly this way. -/
def strLeB : List Char → List Char → Bool
  | [], _ => true
  | _ :: _, [] => false
  | a :: as, b :: bs =>
    if a.toNat < b.toNat then true
    else if b.toNat < a.toNat then false
    else strLeB as bs

/-- Lexicographic order on file names. -/
def fileLe (a b : FileName) : Prop := strLeB a.data b.data = true

instance : DecidableRel fileLe := fun a b => by
  unfold fileLe; infer_instance

/-- The inner helper `get_niis` of `download_data`:
`sorted(p for p in d.glob('*.nii*') if not p.name.startswith('.'))`.
A directory is modelled as the list of its entry names. -/
def get_niis (dir : List FileName) : List FileName :=
  List.insertionSort fileLe (dir.filter fun p => matchesNiiGlob p && !isHiddenFile p)

/-- The dataset root directory: the three scanned subdirectories. -/
structure DirTree where
  imagesTr : List FileName
  labelsTr : List FileName
  imagesTs : List FileName
deriving DecidableEq, Repr

/-- `MedicalDecathlonDataModule.download_data` (the archive download is a
pure I/O side effect and is not modelled; the returned value is the triple
of sorted path lists). -/
def download_data (d : DirTree) : List FileName × List FileName × List FileName :=
  (get_niis d.imagesTr, get_niis d.labelsTr, get_niis d.imagesTs)

/-- The mutable fields of `MedicalDecathlonDataModule` that
`prepare_data` touches, plus the constructor configuration. -/
structure DataModuleState where
  batch_size : Nat
  train_val_ratio : ℚ
  subjects : Option (List Subject)
  test_subjects : Option (List Subject)
deriving DecidableEq

/-- `MedicalDecathlonDataModule.prepare_data`: rebuilds `self.subjects`
(positional `zip` of sorted image and label paths) and
`self.test_subjects` (image-only subjects) from the directory contents,
replacing any previous value. -/
def prepare_data (d : DirTree) (s : DataModuleState) : DataModuleState :=
  let paths := download_data d
  let image_training_paths := paths.1
  let label_training_paths := paths.2.1
  let image_test_paths := paths.2.2
  { s with
    subjects := some ((image_training_paths.zip label_training_paths).map
      fun pl => { image := pl.1, label := some pl.2 }),
    test_subjects := some (image_test_paths.map
      fun p => { image := p, label := none }) }

/-! ### Random permutation and `torch.utils.data.random_split`

`torch.randperm` draws from the (global, seedable) pseudorandom generator
and returns a uniformly random permutation.  The generator is modelled as
a `Nat` state advanced by a 64-bit linear congruential step (the precise
stream differs from torch's Philox/MT generator, but every property below
depends only on (a) the result being a permutation and (b) the result
being a deterministic function of the seed, which both generators
satisfy). -/

/-- One 64-bit LCG step of the modelled global generator. -/
def lcgNext (s : Nat) : Nat :=
  (6364136223846793005 * s + 1442695040888963407) % 2 ^ 64

/-- Fisher–Yates selection shuffle, structurally recursive on a fuel
argument (`shuffleWith` supplies `l.length`, which always suffices). -/
def shuffleFuel : Nat → Nat → List α → List α
  | 0, _, _ => []
  | _ + 1, _, [] => []
  | fuel + 1, s, x :: xs =>
    let s' := lcgNext s
    let j := s' % (x :: xs).length
    (x :: xs).get ⟨j, Nat.mod_lt _ (Nat.succ_pos _)⟩ ::
      shuffleFuel fuel s' ((x :: xs).eraseIdx j)

/-- Fisher–Yates selection shuffle driven by the modelled generator. -/
def shuffleWith (s : Nat) (l : List α) : List α :=
  shuffleFuel l.length s l

/-- `torch.randperm n`: a permutation of `[0, …, n-1]`. -/
def randperm (seed n : Nat) : List Nat :=
  shuffleWith seed (List.range n)

/-- `torch.utils.data.Subset(dataset, indices)`, read off as the list of
selected elements in index order (out-of-range indices, which never occur
below, are skipped). -/
def subsetOf (dataset : List α) (indices : List Nat) : List α :=
  indices.filterMap fun i => dataset[i]?

/-- `torch.utils.data.random_split(dataset, (len0, len1))` for two integer
lengths: raises (`none`) unless the lengths sum to the dataset length;
otherwise shuffles the indices with `randperm` and slices.  The slices
`indices[0:len0]` and `indices[len0:len]` are `take`/`drop` (for the
out-of-range clamping of Python slices, `Int.toNat` agrees on every case
reachable below). -/
def random_split (seed : Nat) (dataset : List α) (len0 len1 : Int) :
    Option (List α × List α) :=
  if len0 + len1 = (dataset.length : Int) then
    let indices := randperm seed dataset.length
    some (subsetOf dataset (indices.take len0.toNat),
          subsetOf dataset (indices.drop len0.toNat))
  else
    none

/-- Python's `round` (round half to even), over exact rationals. -/
def pyRound (q : ℚ) : ℤ :=
  let f := ⌊q⌋
  if q - (f : ℚ) < 1 / 2 then f
  else if (1 : ℚ) / 2 < q - (f : ℚ) then f + 1
  else if f % 2 = 0 then f else f + 1

/-! ### Transform pipelines -/

/-- The `torchio` transforms the source instantiates.  A `compose` node is
`tio.Compose` of an ordered list of transforms. -/
inductive Transform where
  | rescaleIntensity (outMin outMax : Int)
  | cropOrPad (target : Shape3)
  | ensureShapeMultiple (k : Nat)
  | oneHot
  | randomAffine
  | randomGamma (p : ℚ)
  | randomNoise (p : ℚ)
  | randomMotion (p : ℚ)
  | randomBiasField (p : ℚ)
  | compose (ts : List Transform)

mutual

/-- The atomic transforms of a pipeline, in application order
(`tio.Compose` applies its members left to right). -/
def atoms : Transform → List Transform
  | .compose ts => atomsAll ts
  | t => [t]

/-- `atoms` mapped over a list of transforms, concatenated. -/
def atomsAll : List Transform → List Transform
  | [] => []
  | t :: ts => atoms t ++ atomsAll ts

end

/-- `MedicalDecathlonDataModule.get_preprocessing_transform`. -/
def get_preprocessing_transform (spatial_shape : Subject → Shape3)
    (subjects test_subjects : List Subject) : Transform :=
  .compose [
    .rescaleIntensity (-1) 1,
    .cropOrPad (get_max_shape spatial_shape (subjects ++ test_subjects)),
    .ensureShapeMultiple 8,
    .oneHot]

/-- `MedicalDecathlonDataModule.get_augmentation_transform`. -/
def get_augmentation_transform : Transform :=
  .compose [
    .randomAffine,
    .randomGamma (1 / 2),
    .randomNoise (1 / 2),
    .randomMotion (1 / 10),
    .randomBiasField (1 / 4)]

/-! ### `setup` -/

/-- `tio.SubjectsDataset`: subjects plus an optional transform applied to
each subject on access. -/
structure SubjectsDataset where
  subjects : List Subject
  transform : Option Transform

/-- The fields of `MedicalDecathlonDataModule` that `setup` assigns. -/
structure SetupState where
  train_subjects : List Subject
  val_subjects : List Subject
  preprocess : Transform
  transform : Transform
  train_set : SubjectsDataset
  val_set : SubjectsDataset
  test_set : SubjectsDataset

/-- `MedicalDecathlonDataModule.setup`, given the already-prepared subject
lists.  `seed` is the state of the modelled global generator when
`random_split` draws from it. -/
def setup (spatial_shape : Subject → Shape3) (seed : Nat)
    (train_val_ratio : ℚ) (subjects test_subjects : List Subject) :
    Option SetupState :=
  let num_subjects : ℤ := subjects.length
  let num_train_subjects : ℤ := pyRound ((subjects.length : ℚ) * train_val_ratio)
  let num_val_subjects : ℤ := num_subjects - num_train_subjects
  (random_split seed subjects num_train_subjects num_val_subjects).map
    fun tv =>
      let preprocess := get_preprocessing_transform spatial_shape subjects test_subjects
      let augment := get_augmentation_transform
      let transform := Transform.compose [preprocess, augment]
      { train_subjects := tv.1
        val_subjects := tv.2
        preprocess := preprocess
        transform := transform
        train_set := ⟨tv.1, some transform⟩
        val_set := ⟨tv.2, some preprocess⟩
        test_set := ⟨test_subjects, some preprocess⟩ }

/-! ### The process-level seeding behaviour (line 51 of the source)

The module body executes `monai.utils.set_determinism()` before any data
handling.  In MONAI 1.3.0 the default `seed` argument is
`np.iinfo(np.uint32).max`, reduced modulo `MAX_SEED = 2^32`, and passed to
`torch.manual_seed`; so the call overwrites whatever state the global
generator started with by the fixed value `2^32 - 1`. -/

/-- The fixed seed installed by `monai.utils.set_determinism()`. -/
def set_determinism_seed : Nat := 2 ^ 32 - 1

/-- One process run of the script up to `data.setup()`: the process starts
with arbitrary ambient generator state (`ambientEntropy`, varying from run
to run), the module body replaces it via `set_determinism()`, and `setup`
then draws its shuffle from the resulting state. -/
def program_run (ambientEntropy : Nat) (spatial_shape : Subject → Shape3)
    (train_val_ratio : ℚ) (subjects test_subjects : List Subject) :
    Option SetupState :=
  let _generatorState := ambientEntropy
  let generatorState := set_determinism_seed
  setup spatial_shape generatorState train_val_ratio subjects test_subjects

/-! ### `DataLoader` -/

/-- Consecutive batches of the given size, structurally recursive on a
fuel argument (`chunk` supplies `l.length`, which always suffices). -/
def chunkFuel : Nat → Nat → List α → List (List α)
  | 0, _, _ => []
  | _ + 1, _, [] => []
  | _ + 1, 0, _ :: _ => []
  | fuel + 1, b + 1, x :: xs =>
    (x :: xs).take (b + 1) :: chunkFuel fuel (b + 1) ((x :: xs).drop (b + 1))

/-- Consecutive batches of the given size (the final batch may be
shorter; `DataLoader` rejects `batch_size = 0`, so that case is
unreachable and returns `[]`). -/
def chunk (b : Nat) (l : List α) : List (List α) :=
  chunkFuel l.length b l

/-- `torch.utils.data.DataLoader(dataset, batch_size)` as constructed by
the three `*_dataloader` methods: `shuffle` is not passed and defaults to
`False` (sequential sampler), `drop_last` defaults to `False`. -/
structure DataLoaderCfg (α : Type) where
  dataset : List α
  batch_size : Nat
  shuffle : Bool

/-- The batches one iteration (one epoch) of the loader yields.
`epochRngState` is the generator state at the start of the epoch; it is
consulted only when `shuffle = True` (a `RandomSampler` redraws each
epoch), and ignored by the `SequentialSampler` used when
`shuffle = False`. -/
def DataLoaderCfg.epochBatches (dl : DataLoaderCfg α) (epochRngState : Nat) :
    List (List α) :=
  if dl.shuffle then chunk dl.batch_size (shuffleWith epochRngState dl.dataset)
  else chunk dl.batch_size dl.dataset

/-- `MedicalDecathlonDataModule.train_dataloader`:
`DataLoader(self.train_set, self.batch_size)`. -/
def train_dataloader (st : SetupState) (batch_size : Nat) : DataLoaderCfg Subject :=
  { dataset := st.train_set.subjects, batch_size := batch_size, shuffle := false }

/-- `MedicalDecathlonDataModule.val_dataloader`. -/
def val_dataloader (st : SetupState) (batch_size : Nat) : DataLoaderCfg Subject :=
  { dataset := st.val_set.subjects, batch_size := batch_size, shuffle := false }

/-- `MedicalDecathlonDataModule.test_dataloader`. -/
def test_dataloader (st : SetupState) (batch_size : Nat) : DataLoaderCfg Subject :=
  { dataset := st.test_set.subjects, batch_size := batch_size, shuffle := false }

/-! ### The Lightning `Model` steps -/

/-- A collated batch: the stacked tensors stored under the fixed role
keys `'image'` and `'label'` (already extracted at `tio.DATA`).  The
tensor type is abstract. -/
structure Batch (T : Type) where
  image : T
  label : T

/-- What a `self.log(key, value, …)` call records. -/
structure LogEntry (L : Type) where
  key : String
  value : L
  prog_bar : Bool
  log_batch_size : Nat

/-- The value returned by a step, together with its single log call. -/
structure StepResult (L : Type) where
  loss : L
  logged : LogEntry L

/-- `Model.prepare_batch`. -/
def Model.prepare_batch (batch : Batch T) : T × T :=
  (batch.image, batch.label)

/-- `Model.infer_batch`: forwards the image through the network. -/
def Model.infer_batch (net : T → T) (batch : Batch T) : T × T :=
  (net (Model.prepare_batch batch).1, (Model.prepare_batch batch).2)

/-- `Model.training_step`: loss of the batch, logged as `train_loss` with
`prog_bar=True` and `batch_size=len(y)`. -/
def Model.training_step (net : T → T) (criterion : T → T → L)
    (tensorLen : T → Nat) (batch : Batch T) : StepResult L :=
  let yy := Model.infer_batch net batch
  let loss := criterion yy.1 yy.2
  ⟨loss, ⟨"train_loss", loss, true, tensorLen yy.2⟩⟩

/-- `Model.validation_step`: loss of the batch, logged as `val_loss`
(`prog_bar` left at its default `False`) with `batch_size=len(y)`. -/
def Model.validation_step (net : T → T) (criterion : T → T → L)
    (tensorLen : T → Nat) (batch : Batch T) : StepResult L :=
  let yy := Model.infer_batch net batch
  let loss := criterion yy.1 yy.2
  ⟨loss, ⟨"val_loss", loss, false, tensorLen yy.2⟩⟩

/-! ### `tio.OneHot` (step 4 of the preprocessing pipeline)

`tio.OneHot()` leaves `num_classes` at its default `-1` and applies
`torch.nn.functional.one_hot(tensor, -1)` to the label map, which
allocates `max(tensor) + 1` channels.  A label map is modelled as the
flattened list of its voxel label values; the encoding is read off per
voxel as the list of channel values at that voxel. -/

/-- The number of channels `F.one_hot(·, -1)` allocates. -/
def one_hot_num_classes (labels : List Nat) : Nat :=
  labels.foldr max 0 + 1

/-- The per-voxel channel vectors of the one-hot encoding. -/
def one_hot (labels : List Nat) : List (List Nat) :=
  labels.map fun v =>
    (List.range (one_hot_num_classes labels)).map fun c => if c = v then 1 else 0

/-- The number of distinct label values occurring in a label map. -/
def distinctLabelCount (labels : List Nat) : Nat :=
  labels.dedup.length

/-! ### Concrete inputs used by witnesses -/

/-- Three training subjects, as produced from a directory with three
matched image/label pairs. -/
def exSubjects3 : List Subject :=
  [⟨"hippocampus_001.nii.gz", some "hippocampus_001.nii.gz"⟩,
   ⟨"hippocampus_002.nii.gz", some "hippocampus_002.nii.gz"⟩,
   ⟨"hippocampus_003.nii.gz", some "hippocampus_003.nii.gz"⟩]

/-- A shape assignment giving every subject the same small shape. -/
def exShape : Subject → Shape3 := fun _ => ⟨1, 1, 1⟩

/-- A directory tree with two images but only one label. -/
def exDirMismatch : DirTree :=
  ⟨["img_a.nii.gz", "img_b.nii.gz"], ["img_a.nii.gz"], []⟩

/-- A directory tree exercising sorting, hidden-file exclusion and the
extension pattern. -/
def exDirFull : DirTree :=
  ⟨["hippocampus_002.nii.gz", ".DS_Store.nii", "hippocampus_001.nii.gz", "README.txt"],
   ["hippocampus_001.nii.gz", "hippocampus_002.nii.gz"],
   ["hippocampus_101.nii.gz"]⟩

/-- An empty data-module state. -/
def exState0 : DataModuleState :=
  { batch_size := 16, train_val_ratio := 4 / 5, subjects := none, test_subjects := none }

/-- Componentwise (per-axis) comparison of spatial shapes. -/
def shapeLe (a b : Shape3) : Prop :=
  a.s0 ≤ b.s0 ∧ a.s1 ≤ b.s1 ∧ a.s2 ≤ b.s2

/-- The targets of the `CropOrPad` steps of a pipeline, in order. -/
def cropOrPadTargets (t : Transform) : List Shape3 :=
  (atoms t).filterMap fun a =>
    match a with
    | .cropOrPad sh => some sh
    | _ => none

/-- Four training subjects (used to exhibit seed-dependence of the
shuffle). -/
def exSubjects4 : List Subject :=
  exSubjects3 ++ [⟨"hippocampus_004.nii.gz", some "hippocampus_004.nii.gz"⟩]

/-- An unlabeled test subject whose image is larger than every training
image under `exShapeFn`. -/
def exTestBig : Subject := ⟨"big.nii", none⟩

/-- A shape assignment under which only `exTestBig` is large. -/
def exShapeFn : Subject → Shape3 :=
  fun s => if s.image = "big.nii" then ⟨2, 2, 2⟩ else ⟨1, 1, 1⟩

/-- A concrete state as `setup` would assign it (used by witnesses). -/
def exSetupState : SetupState :=
  let pre := get_preprocessing_transform exShape exSubjects3 []
  let tr := Transform.compose [pre, get_augmentation_transform]
  { train_subjects := exSubjects3.take 2
    val_subjects := exSubjects3.drop 2
    preprocess := pre
    transform := tr
    train_set := ⟨exSubjects3.take 2, some tr⟩
    val_set := ⟨exSubjects3.drop 2, some pre⟩
    test_set := ⟨[], some pre⟩ }

instance : IsTotal FileName fileLe where
  total a b := by
    unfold fileLe
    suffices h : ∀ x y : List Char, strLeB x y = true ∨ strLeB y x = true from
      h a.data b.data
    intro x
    induction x with
    | nil => intro y; left; rfl
    | cons c cs ih =>
      intro y
      cases y with
      | nil => right; rfl
      | cons d ds =>
        rcases Nat.lt_trichotomy c.toNat d.toNat with h1 | h1 | h1
        · left; simp [strLeB, h1]
        · rcases ih ds with h2 | h2
          · left; simp [strLeB, h1, h2]
          · right; simp [strLeB, h1.symm, h2]
        · right; simp [strLeB, h1]

instance : IsTrans FileName fileLe where
  trans a b c := by
    unfold fileLe
    suffices h : ∀ x y z : List Char,
        strLeB x y = true → strLeB y z = true → strLeB x z = true from
      h a.data b.data c.data
    intro x
    induction x with
    | nil => intro y z _ _; rfl
    | cons cx xs ih =>
      intro y z hxy hyz
      cases y with
      | nil => simp [strLeB] at hxy
      | cons cy ys =>
        cases z with
        | nil => simp [strLeB] at hyz
        | cons cz zs =>
          simp only [strLeB] at hxy hyz ⊢
          have hxy' : cx.toNat < cy.toNat ∨
              (cx.toNat = cy.toNat ∧ strLeB xs ys = true) := by
            by_cases h1 : cx.toNat < cy.toNat
            · exact Or.inl h1
            · by_cases h3 : cy.toNat < cx.toNat
              · simp [h1, h3] at hxy
              · exact Or.inr ⟨by omega, by simpa [h1, h3] using hxy⟩
          have hyz' : cy.toNat < cz.toNat ∨
              (cy.toNat = cz.toNat ∧ strLeB ys zs = true) := by
            by_cases h2 : cy.toNat < cz.toNat
            · exact Or.inl h2
            · by_cases h4 : cz.toNat < cy.toNat
              · simp [h2, h4] at hyz
              · exact Or.inr ⟨by omega, by simpa [h2, h4] using hyz⟩
          rcases hxy' with h | ⟨he1, hs1⟩ <;> rcases hyz' with h2 | ⟨he2, hs2⟩
          · have hlt : cx.toNat < cz.toNat := by omega
            simp [hlt]
          · have hlt : cx.toNat < cz.toNat := by omega
            simp [hlt]
          · have hlt : cx.toNat < cz.toNat := by omega
            simp [hlt]
          · have e1 : ¬ cx.toNat < cz.toNat := by omega
            have e2 : ¬ cz.toNat < cx.toNat := by omega
            simp only [e1, if_false, e2]
            exact ih ys zs hs1 hs2

end TorchioMonai

namespace TorchioMonai

/-! ## Helper lemmas -/

theorem get_cons_eraseIdx_perm (l : List α) : ∀ (j : Nat) (h : j < l.length),
    (l.get ⟨j, h⟩ :: l.eraseIdx j).Perm l := by
  induction l with
  | nil => intro j h; exact absurd h (by simp)
  | cons x xs ih =>
    intro j h
    cases j with
    | zero => exact List.Perm.refl _
    | succ j =>
      have hj : j < xs.length := Nat.lt_of_succ_lt_succ h
      exact (List.Perm.swap x (xs.get ⟨j, hj⟩) (xs.eraseIdx j)).trans ((ih j hj).cons x)

theorem shuffleFuel_perm : ∀ (fuel s : Nat) (l : List α), l.length ≤ fuel →
    (shuffleFuel fuel s l).Perm l := by
  intro fuel
  induction fuel with
  | zero =>
    intro s l h
    rw [List.eq_nil_of_length_eq_zero (Nat.le_zero.mp h)]
    exact List.Perm.nil
  | succ fuel ih =>
    intro s l h
    cases l with
    | nil => exact List.Perm.nil
    | cons x xs =>
      have hj : (lcgNext s) % (x :: xs).length < (x :: xs).length :=
        Nat.mod_lt _ (Nat.succ_pos _)
      have hlen : ((x :: xs).eraseIdx ((lcgNext s) % (x :: xs).length)).length ≤ fuel := by
        rw [List.length_eraseIdx_of_lt hj]
        simpa using Nat.le_of_succ_le_succ h
      exact ((ih (lcgNext s) _ hlen).cons _).trans (get_cons_eraseIdx_perm (x :: xs) _ hj)

theorem shuffleWith_perm (s : Nat) (l : List α) : (shuffleWith s l).Perm l :=
  shuffleFuel_perm l.length s l le_rfl

theorem randperm_perm (seed n : Nat) : (randperm seed n).Perm (List.range n) := by
  simpa [randperm] using shuffleWith_perm seed (List.range n)

theorem length_randperm (seed n : Nat) : (randperm seed n).length = n := by
  simpa using (randperm_perm seed n).length_eq

theorem subsetOf_append (l : List α) (a b : List Nat) :
    subsetOf l (a ++ b) = subsetOf l a ++ subsetOf l b :=
  List.filterMap_append a b _

theorem length_subsetOf (l : List α) : ∀ (idxs : List Nat),
    (∀ i ∈ idxs, i < l.length) → (subsetOf l idxs).length = idxs.length := by
  intro idxs
  induction idxs with
  | nil => intro _; rfl
  | cons i is ih =>
    intro h
    have hi : i < l.length := h i (List.mem_cons_self i is)
    have hsome : l[i]? = some (l.get ⟨i, hi⟩) := List.getElem?_eq_getElem hi
    show (List.filterMap _ (i :: is)).length = is.length + 1
    rw [List.filterMap_cons, hsome]
    have := ih fun j hj => h j (List.mem_cons_of_mem _ hj)
    simp only [subsetOf] at this
    rw [List.length_cons, this]

theorem subsetOf_range_aux : ∀ (rest done : List α),
    subsetOf (done ++ rest) (List.range' done.length rest.length) = rest := by
  intro rest
  induction rest with
  | nil => intro done; rfl
  | cons x xs ih =>
    intro done
    rw [List.length_cons, List.range'_succ]
    have hx : (done ++ x :: xs)[done.length]? = some x := by
      rw [List.getElem?_append_right (Nat.le_refl _)]
      simp
    simp only [subsetOf, List.filterMap_cons, hx]
    congr 1
    have h3 : done ++ x :: xs = (done ++ [x]) ++ xs := by simp
    have h2 : done.length + 1 = (done ++ [x]).length := by simp
    simp only [h3, h2]
    exact ih (done ++ [x])

theorem subsetOf_range (l : List α) : subsetOf l (List.range l.length) = l := by
  simpa [List.range_eq_range'] using subsetOf_range_aux l []

theorem pyRound_nonneg {q : ℚ} (h : 0 ≤ q) : 0 ≤ pyRound q := by
  have hf : (0 : ℤ) ≤ ⌊q⌋ := Int.floor_nonneg.mpr h
  simp only [pyRound]
  split_ifs <;> omega

theorem pyRound_le {q : ℚ} {n : ℤ} (h : q < (n : ℚ)) : pyRound q ≤ n := by
  have hf : ⌊q⌋ < n := Int.floor_lt.mpr h
  simp only [pyRound]
  split_ifs <;> omega

/-- `setup` never raises: the two lengths handed to `random_split` sum to
the dataset length by construction, and the result is the state read off
from the shuffled index list. -/
theorem setup_eq (f : Subject → Shape3) (seed : Nat) (r : ℚ)
    (subs tests : List Subject) :
    setup f seed r subs tests = some
      { train_subjects := subsetOf subs
          ((randperm seed subs.length).take (pyRound ((subs.length : ℚ) * r)).toNat)
        val_subjects := subsetOf subs
          ((randperm seed subs.length).drop (pyRound ((subs.length : ℚ) * r)).toNat)
        preprocess := get_preprocessing_transform f subs tests
        transform := .compose [get_preprocessing_transform f subs tests,
          get_augmentation_transform]
        train_set := ⟨subsetOf subs ((randperm seed subs.length).take
            (pyRound ((subs.length : ℚ) * r)).toNat),
          some (.compose [get_preprocessing_transform f subs tests,
            get_augmentation_transform])⟩
        val_set := ⟨subsetOf subs ((randperm seed subs.length).drop
            (pyRound ((subs.length : ℚ) * r)).toNat),
          some (get_preprocessing_transform f subs tests)⟩
        test_set := ⟨tests, some (get_preprocessing_transform f subs tests)⟩ } := by
  simp only [setup, random_split]
  rw [if_pos (by ring)]
  rfl

/-! ## Claim theorems -/

/-- C1.  For every list of indexed training subjects and every ratio
`r ∈ (0,1)`, `setup` succeeds and partitions the subjects into a train
set of size `round(N*r)` and a validation set of size `N - round(N*r)`
whose concatenation is a permutation of the input: every subject lands
in exactly one of the two output sets, none dropped or duplicated. -/
theorem setup_split_partition (f : Subject → Shape3) (seed : Nat) (r : ℚ)
    (subs tests : List Subject) (h0 : 0 < r) (h1 : r < 1) :
    ∃ st, setup f seed r subs tests = some st ∧
      st.train_subjects.length = (pyRound ((subs.length : ℚ) * r)).toNat ∧
      st.val_subjects.length =
        subs.length - (pyRound ((subs.length : ℚ) * r)).toNat ∧
      (st.train_subjects ++ st.val_subjects).Perm subs := by
  have hperm := randperm_perm seed subs.length
  have hlen : (randperm seed subs.length).length = subs.length :=
    length_randperm seed subs.length
  have hmem : ∀ i ∈ randperm seed subs.length, i < subs.length := fun i hi =>
    List.mem_range.mp (hperm.mem_iff.mp hi)
  have hnt : (pyRound ((subs.length : ℚ) * r)).toNat ≤ subs.length := by
    rcases Nat.eq_zero_or_pos subs.length with hN | hN
    · have hq : ((subs.length : ℚ) * r) = 0 := by rw [hN]; simp
      have h0' : pyRound ((subs.length : ℚ) * r) = 0 := by
        rw [hq]
        simp only [pyRound]
        rw [show ⌊(0 : ℚ)⌋ = 0 from Int.floor_zero]
        norm_num
      rw [h0']
      simp [hN]
    · have hlt : (subs.length : ℚ) * r < ((subs.length : ℤ) : ℚ) := by
        push_cast
        exact mul_lt_of_lt_one_right (by exact_mod_cast hN) h1
      exact Int.toNat_le.mpr (pyRound_le hlt)
  refine ⟨_, setup_eq f seed r subs tests, ?_, ?_, ?_⟩
  · show (subsetOf subs ((randperm seed subs.length).take
        (pyRound ((subs.length : ℚ) * r)).toNat)).length = _
    rw [length_subsetOf subs _ fun i hi => hmem i (List.mem_of_mem_take hi)]
    rw [List.length_take, hlen, Nat.min_eq_left hnt]
  · show (subsetOf subs ((randperm seed subs.length).drop
        (pyRound ((subs.length : ℚ) * r)).toNat)).length = _
    rw [length_subsetOf subs _ fun i hi => hmem i (List.mem_of_mem_drop hi)]
    rw [List.length_drop, hlen]
  · show (subsetOf subs ((randperm seed subs.length).take
        (pyRound ((subs.length : ℚ) * r)).toNat) ++
      subsetOf subs ((randperm seed subs.length).drop
        (pyRound ((subs.length : ℚ) * r)).toNat)).Perm subs
    rw [← subsetOf_append, List.take_append_drop]
    have hstep : (subsetOf subs (randperm seed subs.length)).Perm
        (subsetOf subs (List.range subs.length)) :=
      hperm.filterMap _
    rw [subsetOf_range subs] at hstep
    exact hstep

/-- Witness for C1 at the end-to-end scenario of the spec: three matched
subjects and ratio `0.8` give sets of sizes `2` and `1` covering all
three subjects. -/
theorem setup_split_partition_witness :
    ∃ st, setup exShape 0 (4 / 5) exSubjects3 [] = some st ∧
      st.train_subjects.length = 2 ∧ st.val_subjects.length = 1 ∧
      (st.train_subjects ++ st.val_subjects).Perm exSubjects3 := by
  have hr : pyRound ((exSubjects3.length : ℚ) * (4 / 5)) = 2 := by
    have h3 : (exSubjects3.length : ℚ) = 3 := by simp [exSubjects3]
    rw [h3]
    simp only [pyRound]
    rw [show ⌊(3 : ℚ) * (4 / 5)⌋ = 2 from by norm_num [Int.floor_eq_iff]]
    norm_num
  obtain ⟨st, hst, hl1, hl2, hp⟩ :=
    setup_split_partition exShape 0 (4 / 5) exSubjects3 [] (by norm_num) (by norm_num)
  refine ⟨st, hst, ?_, ?_, hp⟩
  · rw [hl1, hr]; rfl
  · rw [hl2, hr]; rfl

/-- C4 (counterexample to the claim as stated): the partition does not
vary between runs.  Two process runs with different ambient generator
states produce identical `setup` results, because line 51
(`monai.utils.set_determinism()`) overwrites the global generator state
with a fixed seed before the split; the split is a real one (the run
succeeds, with 2 train and 1 validation subjects). -/
theorem program_run_identical_counterexample :
    program_run 0 exShape (4 / 5) exSubjects3 [] =
      program_run 987654321 exShape (4 / 5) exSubjects3 [] ∧
    (program_run 0 exShape (4 / 5) exSubjects3 []).map
        (fun st => (st.train_subjects.length, st.val_subjects.length)) =
      some (2, 1) := by
  refine ⟨rfl, ?_⟩
  have hr0 : pyRound ((exSubjects3.length : ℚ) * (4 / 5)) = 2 := by
    have h3 : (exSubjects3.length : ℚ) = 3 := by simp [exSubjects3]
    rw [h3]
    simp only [pyRound]
    rw [show ⌊(3 : ℚ) * (4 / 5)⌋ = 2 from by norm_num [Int.floor_eq_iff]]
    norm_num
  have hr : (pyRound ((exSubjects3.length : ℚ) * (4 / 5))).toNat = 2 := by
    rw [hr0]; rfl
  show (setup exShape set_determinism_seed (4 / 5) exSubjects3 []).map
      (fun st => (st.train_subjects.length, st.val_subjects.length)) = some (2, 1)
  rw [setup_eq, Option.map_some']
  rw [hr]
  decide

/-- C4 (amended).  The train/validation membership is drawn from the
global generator, which the module itself seeds with a fixed value via
`set_determinism()` at import time; hence every two process runs produce
the same partition, with no caller-side seeding — while the shuffle does
depend on the generator state in general (seeds `0` and `1` split four
subjects differently). -/
theorem program_run_reproducible :
    (∀ (a1 a2 : Nat) (f : Subject → Shape3) (r : ℚ)
        (subs tests : List Subject),
      program_run a1 f r subs tests = program_run a2 f r subs tests) ∧
    (∃ s1 s2 : Nat,
      (setup exShape s1 (1 / 2) exSubjects4 []).map SetupState.train_subjects ≠
        (setup exShape s2 (1 / 2) exSubjects4 []).map SetupState.train_subjects) := by
  refine ⟨fun a1 a2 f r subs tests => rfl, 0, 1, ?_⟩
  have hr0 : pyRound ((exSubjects4.length : ℚ) * (1 / 2)) = 2 := by
    have h4 : (exSubjects4.length : ℚ) = 4 := by simp [exSubjects4, exSubjects3]
    rw [h4]
    simp only [pyRound]
    rw [show ⌊(4 : ℚ) * (1 / 2)⌋ = 2 from by norm_num [Int.floor_eq_iff]]
    norm_num
  have hr : (pyRound ((exSubjects4.length : ℚ) * (1 / 2))).toNat = 2 := by
    rw [hr0]; rfl
  rw [setup_eq, setup_eq, Option.map_some', Option.map_some']
  rw [hr]
  decide

theorem shapeLe_trans {a b c : Shape3} (h1 : shapeLe a b) (h2 : shapeLe b c) :
    shapeLe a c :=
  ⟨le_trans h1.1 h2.1, le_trans h1.2.1 h2.2.1, le_trans h1.2.2 h2.2.2⟩

theorem shapeLe_shapeMax_left (a b : Shape3) : shapeLe a (shapeMax a b) :=
  ⟨Nat.le_max_left _ _, Nat.le_max_left _ _, Nat.le_max_left _ _⟩

theorem shapeLe_shapeMax_right (a b : Shape3) : shapeLe b (shapeMax a b) :=
  ⟨Nat.le_max_right _ _, Nat.le_max_right _ _, Nat.le_max_right _ _⟩

theorem acc_shapeLe_foldl : ∀ (shapes : List Shape3) (acc : Shape3),
    shapeLe acc (shapes.foldl shapeMax acc) := by
  intro shapes
  induction shapes with
  | nil => intro acc; exact ⟨le_refl _, le_refl _, le_refl _⟩
  | cons x xs ih =>
    intro acc
    exact shapeLe_trans (shapeLe_shapeMax_left acc x) (ih (shapeMax acc x))

theorem mem_shapeLe_foldl : ∀ (shapes : List Shape3) (acc sh : Shape3),
    sh ∈ shapes → shapeLe sh (shapes.foldl shapeMax acc) := by
  intro shapes
  induction shapes with
  | nil => intro acc sh h; simp at h
  | cons x xs ih =>
    intro acc sh h
    rcases List.mem_cons.mp h with rfl | h2
    · exact shapeLe_trans (shapeLe_shapeMax_right acc sh)
        (acc_shapeLe_foldl xs (shapeMax acc sh))
    · exact ih (shapeMax acc x) sh h2

/-- C5.  `setup` composes, for every input, the transform pipelines in a
fixed order: the preprocessing pipeline is rescale, then pad-or-crop to
the pool-wide target, then pad to multiples of 8, then one-hot; the
training set's transform is the whole preprocessing pipeline followed
strictly by the augmentation pipeline, while the validation and test
sets carry the preprocessing pipeline only. -/
theorem pipeline_order_and_assignment (f : Subject → Shape3) (seed : Nat)
    (r : ℚ) (subs tests : List Subject) :
    ∃ st, setup f seed r subs tests = some st ∧
      st.preprocess = get_preprocessing_transform f subs tests ∧
      atoms st.preprocess =
        [.rescaleIntensity (-1) 1,
         .cropOrPad (get_max_shape f (subs ++ tests)),
         .ensureShapeMultiple 8,
         .oneHot] ∧
      st.transform = .compose [st.preprocess, get_augmentation_transform] ∧
      atoms st.transform = atoms st.preprocess ++ atoms get_augmentation_transform ∧
      atoms get_augmentation_transform =
        [.randomAffine, .randomGamma (1 / 2), .randomNoise (1 / 2),
         .randomMotion (1 / 10), .randomBiasField (1 / 4)] ∧
      st.train_set.transform = some st.transform ∧
      st.val_set.transform = some st.preprocess ∧
      st.test_set.transform = some st.preprocess := by
  exact ⟨_, setup_eq f seed r subs tests, rfl, rfl, rfl, rfl, rfl, rfl, rfl, rfl⟩

/-- C3.  The pad-or-crop target of the preprocessing pipeline is exactly
the per-axis maximum over the full subject pool — training plus test
subjects — computed at pipeline construction (the pipeline stores the
value); it dominates every subject's shape per axis, and a concrete pool
shows that adding one test subject changes the target applied to every
split. -/
theorem preprocessing_target_full_pool (f : Subject → Shape3)
    (subs tests : List Subject) :
    cropOrPadTargets (get_preprocessing_transform f subs tests) =
      [get_max_shape f (subs ++ tests)] ∧
    (∀ s ∈ subs ++ tests, shapeLe (f s) (get_max_shape f (subs ++ tests))) ∧
    cropOrPadTargets (get_preprocessing_transform exShapeFn exSubjects3 [exTestBig]) ≠
      cropOrPadTargets (get_preprocessing_transform exShapeFn exSubjects3 []) := by
  refine ⟨rfl, ?_, by decide⟩
  intro s hs
  exact mem_shapeLe_foldl ((subs ++ tests).map f) _ (f s) (List.mem_map_of_mem f hs)

/-- Witness for C3: the added test subject's shape is itself dominated by
the pool-wide target computed over training plus test subjects. -/
theorem preprocessing_target_full_pool_witness :
    shapeLe (exShapeFn exTestBig)
      (get_max_shape exShapeFn (exSubjects3 ++ [exTestBig])) :=
  (preprocessing_target_full_pool exShapeFn exSubjects3 [exTestBig]).2.1
    exTestBig (by simp)

/-- C2.  When the sorted image and label lists differ in length,
`prepare_data` still succeeds (the embedding is total — no error is
raised) and the positional pairing silently truncates: the stored
training-subject list has exactly `min` of the two lengths, strictly
fewer than the longer list. -/
theorem prepare_data_truncates (d : DirTree) (s : DataModuleState)
    (hne : (get_niis d.imagesTr).length ≠ (get_niis d.labelsTr).length) :
    ∃ subs, (prepare_data d s).subjects = some subs ∧
      subs.length =
        min (get_niis d.imagesTr).length (get_niis d.labelsTr).length ∧
      subs.length <
        max (get_niis d.imagesTr).length (get_niis d.labelsTr).length := by
  refine ⟨_, rfl, ?_, ?_⟩
  · show ((((get_niis d.imagesTr).zip (get_niis d.labelsTr)).map _).length = _)
    rw [List.length_map, List.length_zip]
  · show ((((get_niis d.imagesTr).zip (get_niis d.labelsTr)).map _).length < _)
    rw [List.length_map, List.length_zip]
    omega

/-- Witness for C2: a directory with two images and one label yields one
training subject, with no error. -/
theorem prepare_data_truncates_witness :
    (get_niis exDirMismatch.imagesTr).length ≠
        (get_niis exDirMismatch.labelsTr).length ∧
    ∃ subs, (prepare_data exDirMismatch exState0).subjects = some subs ∧
      subs.length = 1 := by
  have hne : (get_niis exDirMismatch.imagesTr).length ≠
      (get_niis exDirMismatch.labelsTr).length := by decide
  obtain ⟨subs, h1, h2, h3⟩ := prepare_data_truncates exDirMismatch exState0 hne
  refine ⟨hne, subs, h1, ?_⟩
  rw [h2]
  decide

/-- C7.  On the same batch and network state, the validation step
computes exactly the loss of the training step — same role-key
extraction, same forward pass, same criterion — and the two steps differ
only in the reported signal: `train_loss` with `prog_bar` versus
`val_loss` without, both scoped to the same batch size. -/
theorem train_val_step_same_loss {T L : Type} (net : T → T)
    (criterion : T → T → L) (tensorLen : T → Nat) (batch : Batch T) :
    (Model.training_step net criterion tensorLen batch).loss =
      (Model.validation_step net criterion tensorLen batch).loss ∧
    (Model.training_step net criterion tensorLen batch).loss =
      criterion (net batch.image) batch.label ∧
    (Model.training_step net criterion tensorLen batch).logged.value =
      (Model.validation_step net criterion tensorLen batch).logged.value ∧
    (Model.training_step net criterion tensorLen batch).logged.log_batch_size =
      (Model.validation_step net criterion tensorLen batch).logged.log_batch_size ∧
    (Model.training_step net criterion tensorLen batch).logged.key = "train_loss" ∧
    (Model.validation_step net criterion tensorLen batch).logged.key = "val_loss" ∧
    (Model.training_step net criterion tensorLen batch).logged.prog_bar = true ∧
    (Model.validation_step net criterion tensorLen batch).logged.prog_bar = false :=
  ⟨rfl, rfl, rfl, rfl, rfl, rfl, rfl, rfl⟩

theorem zip_map_fst_take : ∀ (a : List α) (b : List β),
    (a.zip b).map Prod.fst = a.take (a.zip b).length := by
  intro a
  induction a with
  | nil => intro b; rfl
  | cons x xs ih =>
    intro b
    cases b with
    | nil => rfl
    | cons y ys => simp [List.zip_cons_cons, ih ys]

theorem zip_map_snd_take : ∀ (a : List α) (b : List β),
    (a.zip b).map Prod.snd = b.take (a.zip b).length := by
  intro a
  induction a with
  | nil => intro b; cases b <;> rfl
  | cons x xs ih =>
    intro b
    cases b with
    | nil => rfl
    | cons y ys => simp [List.zip_cons_cons, ih ys]

/-- C6.  The subject indexer sorts each of the three directories'
matching, non-hidden entries lexicographically (the sorted list is a
permutation of exactly the entries matching `*.nii*` that are not
hidden), pairs the i-th image with the i-th label positionally to build
the training subjects, and turns each `imagesTs` entry into a test
subject carrying only the image role (`label = none`). -/
theorem subject_indexer_spec (d : DirTree) (s : DataModuleState) :
    (List.Sorted fileLe (get_niis d.imagesTr) ∧
      (get_niis d.imagesTr).Perm
        (d.imagesTr.filter fun p => matchesNiiGlob p && !isHiddenFile p)) ∧
    (List.Sorted fileLe (get_niis d.labelsTr) ∧
      (get_niis d.labelsTr).Perm
        (d.labelsTr.filter fun p => matchesNiiGlob p && !isHiddenFile p)) ∧
    (List.Sorted fileLe (get_niis d.imagesTs) ∧
      (get_niis d.imagesTs).Perm
        (d.imagesTs.filter fun p => matchesNiiGlob p && !isHiddenFile p)) ∧
    (∃ subs, (prepare_data d s).subjects = some subs ∧
      subs.map Subject.image = (get_niis d.imagesTr).take subs.length ∧
      subs.map Subject.label =
        ((get_niis d.labelsTr).take subs.length).map some) ∧
    (∃ tsubs, (prepare_data d s).test_subjects = some tsubs ∧
      tsubs.map Subject.image = get_niis d.imagesTs ∧
      tsubs.map Subject.label = List.replicate tsubs.length none) := by
  refine ⟨⟨List.sorted_insertionSort fileLe _, List.perm_insertionSort fileLe _⟩,
    ⟨List.sorted_insertionSort fileLe _, List.perm_insertionSort fileLe _⟩,
    ⟨List.sorted_insertionSort fileLe _, List.perm_insertionSort fileLe _⟩,
    ⟨_, rfl, ?_, ?_⟩, ⟨_, rfl, ?_, ?_⟩⟩
  · show ((((get_niis d.imagesTr).zip (get_niis d.labelsTr)).map _).map
        Subject.image = _)
    rw [List.map_map, List.length_map]
    exact zip_map_fst_take _ _
  · show ((((get_niis d.imagesTr).zip (get_niis d.labelsTr)).map _).map
        Subject.label = _)
    rw [List.map_map, List.length_map]
    have := congrArg (List.map some) (zip_map_snd_take (get_niis d.imagesTr)
      (get_niis d.labelsTr))
    rw [List.map_map] at this
    exact this
  · show ((get_niis d.imagesTs).map _).map Subject.image = get_niis d.imagesTs
    rw [List.map_map]
    exact List.map_id'' (fun _ => rfl) _
  · show ((get_niis d.imagesTs).map _).map Subject.label = _
    rw [List.map_map, List.length_map]
    exact List.map_const' _ none

theorem foldr_max_le_mem : ∀ (labels : List Nat) (v : Nat),
    v ∈ labels → v ≤ labels.foldr max 0 := by
  intro labels
  induction labels with
  | nil => intro v h; simp at h
  | cons x xs ih =>
    intro v h
    rcases List.mem_cons.mp h with rfl | h2
    · exact Nat.le_max_left _ _
    · exact le_trans (ih v h2) (Nat.le_max_right _ _)

theorem sum_indicator_zero : ∀ (n v : Nat), n ≤ v →
    ((List.range n).map fun c => if c = v then (1 : Nat) else 0).sum = 0 := by
  intro n
  induction n with
  | zero => intro v _; rfl
  | succ n ih =>
    intro v h
    rw [List.range_succ, List.map_append, List.sum_append]
    have hne : n ≠ v := by omega
    simp [hne, ih v (by omega)]

theorem sum_indicator_one : ∀ (n v : Nat), v < n →
    ((List.range n).map fun c => if c = v then (1 : Nat) else 0).sum = 1 := by
  intro n
  induction n with
  | zero => intro v h; omega
  | succ n ih =>
    intro v h
    rw [List.range_succ, List.map_append, List.sum_append]
    rcases Nat.lt_or_ge v n with h2 | h2
    · have hne : n ≠ v := by omega
      simp [hne, ih v h2]
    · have he : n = v := by omega
      simp [he, sum_indicator_zero v v le_rfl]

/-- C8 (counterexample to the claim as stated): a label map with the two
distinct values `{0, 2}` is encoded with three channels, not two —
`F.one_hot(·, -1)` allocates `max + 1` channels, not one per distinct
value. -/
theorem one_hot_channels_counterexample :
    distinctLabelCount [0, 2] = 2 ∧
    (∃ vec ∈ one_hot [0, 2], vec.length ≠ distinctLabelCount [0, 2]) := by
  decide

/-- C8 (amended).  The one-hot step produces, for every label map,
exactly `max label value + 1` channels; every channel entry is boolean
(`0` or `1`), and at every voxel the channel values sum to `1`. -/
theorem one_hot_channels_amended (labels : List Nat) :
    ∀ vec ∈ one_hot labels,
      vec.length = one_hot_num_classes labels ∧
      (∀ x ∈ vec, x = 0 ∨ x = 1) ∧
      vec.sum = 1 := by
  intro vec hvec
  obtain ⟨v, hv, rfl⟩ := List.mem_map.mp hvec
  refine ⟨by simp, ?_, ?_⟩
  · intro x hx
    obtain ⟨c, _, rfl⟩ := List.mem_map.mp hx
    by_cases h : c = v <;> simp [h]
  · have hvlt : v < one_hot_num_classes labels :=
      Nat.lt_succ_of_le (foldr_max_le_mem labels v hv)
    exact sum_indicator_one (one_hot_num_classes labels) v hvlt

/-- Witness for C8 (amended), at the label map `[0, 1, 2]` and its first
voxel's channel vector. -/
theorem one_hot_channels_amended_witness :
    List.length [1, 0, 0] = one_hot_num_classes [0, 1, 2] ∧
    (∀ x ∈ [1, 0, 0], x = 0 ∨ x = 1) ∧
    List.sum [1, 0, 0] = 1 :=
  one_hot_channels_amended [0, 1, 2] [1, 0, 0] (by decide)

theorem chunkFuel_nil (fuel b : Nat) : chunkFuel fuel b ([] : List α) = [] := by
  cases fuel <;> cases b <;> rfl

theorem chunkFuel_flatten : ∀ (fuel b : Nat) (l : List α), l.length ≤ fuel → 0 < b →
    (chunkFuel fuel b l).flatten = l := by
  intro fuel
  induction fuel with
  | zero =>
    intro b l h _
    rw [List.eq_nil_of_length_eq_zero (Nat.le_zero.mp h)]
    rfl
  | succ fuel ih =>
    intro b l h hb
    cases l with
    | nil => rw [chunkFuel_nil]; rfl
    | cons x xs =>
      cases b with
      | zero => exact absurd hb (lt_irrefl 0)
      | succ b =>
        show ((x :: xs).take (b + 1) ++
          (chunkFuel fuel (b + 1) ((x :: xs).drop (b + 1))).flatten) = x :: xs
        rw [ih (b + 1) _ (by simp only [List.length_drop, List.length_cons] at h ⊢; omega) (Nat.succ_pos b)]
        exact List.take_append_drop _ _

theorem chunk_flatten (b : Nat) (l : List α) (hb : 0 < b) : (chunk b l).flatten = l :=
  chunkFuel_flatten l.length b l le_rfl hb

theorem chunkFuel_mem_sizes : ∀ (fuel b : Nat) (l : List α), l.length ≤ fuel →
    ∀ c ∈ chunkFuel fuel b l, c ≠ [] ∧ c.length ≤ b := by
  intro fuel
  induction fuel with
  | zero => intro b l _ c hc; simp [chunkFuel] at hc
  | succ fuel ih =>
    intro b l h c hc
    cases l with
    | nil => simp [chunkFuel] at hc
    | cons x xs =>
      cases b with
      | zero => simp [chunkFuel] at hc
      | succ b =>
        rcases List.mem_cons.mp hc with rfl | h2
        · constructor
          · simp
          · rw [List.length_take]
            exact Nat.min_le_left _ _
        · exact ih (b + 1) _ (by simp only [List.length_drop, List.length_cons] at h ⊢; omega) c h2

theorem chunkFuel_dropLast_full : ∀ (fuel b : Nat) (l : List α),
    l.length ≤ fuel →
    ∀ c ∈ (chunkFuel fuel (b + 1) l).dropLast, c.length = b + 1 := by
  intro fuel
  induction fuel with
  | zero => intro b l _ c hc; simp [chunkFuel] at hc
  | succ fuel ih =>
    intro b l h c hc
    cases l with
    | nil => simp [chunkFuel] at hc
    | cons x xs =>
      have hx : chunkFuel (fuel + 1) (b + 1) (x :: xs) =
          (x :: xs).take (b + 1) ::
            chunkFuel fuel (b + 1) ((x :: xs).drop (b + 1)) := rfl
      rw [hx] at hc
      by_cases hrest : chunkFuel fuel (b + 1) ((x :: xs).drop (b + 1)) = []
      · rw [hrest] at hc
        simp at hc
      · rw [List.dropLast_cons_of_ne_nil hrest] at hc
        rcases List.mem_cons.mp hc with rfl | h2
        · have hd : (x :: xs).drop (b + 1) ≠ [] := by
            intro hnil
            exact hrest (by rw [hnil]; exact chunkFuel_nil fuel (b + 1))
          have hlong : b + 1 ≤ (x :: xs).length := by
            by_contra hshort
            exact hd (List.drop_eq_nil_of_le (by omega))
          rw [List.length_take]
          omega
        · exact ih b _ (by simp only [List.length_drop, List.length_cons] at h ⊢; omega) c h2

/-- C9.  Each of the three batch loaders yields, on every epoch, the
same batch sequence (no reshuffling: `shuffle` is left at `False`); the
batches concatenate to exactly the underlying split in its stored order;
and every batch is nonempty of size at most `batch_size`, all but the
last of exactly `batch_size`. -/
theorem dataloaders_sequential_fixed_batches (st : SetupState) (bs : Nat)
    (hbs : 0 < bs) (e1 e2 : Nat) :
    ((train_dataloader st bs).epochBatches e1 =
        (train_dataloader st bs).epochBatches e2) ∧
    ((val_dataloader st bs).epochBatches e1 =
        (val_dataloader st bs).epochBatches e2) ∧
    ((test_dataloader st bs).epochBatches e1 =
        (test_dataloader st bs).epochBatches e2) ∧
    ((train_dataloader st bs).epochBatches e1).flatten = st.train_set.subjects ∧
    ((val_dataloader st bs).epochBatches e1).flatten = st.val_set.subjects ∧
    ((test_dataloader st bs).epochBatches e1).flatten = st.test_set.subjects ∧
    (∀ c ∈ (train_dataloader st bs).epochBatches e1, c ≠ [] ∧ c.length ≤ bs) ∧
    (∀ c ∈ (val_dataloader st bs).epochBatches e1, c ≠ [] ∧ c.length ≤ bs) ∧
    (∀ c ∈ (test_dataloader st bs).epochBatches e1, c ≠ [] ∧ c.length ≤ bs) ∧
    (∀ c ∈ ((train_dataloader st bs).epochBatches e1).dropLast,
      c.length = bs) := by
  obtain ⟨b, rfl⟩ : ∃ b, bs = b + 1 :=
    ⟨bs - 1, by omega⟩
  refine ⟨rfl, rfl, rfl, chunk_flatten _ _ hbs, chunk_flatten _ _ hbs,
    chunk_flatten _ _ hbs, ?_, ?_, ?_, ?_⟩
  · exact fun c hc => chunkFuel_mem_sizes _ _ _ le_rfl c hc
  · exact fun c hc => chunkFuel_mem_sizes _ _ _ le_rfl c hc
  · exact fun c hc => chunkFuel_mem_sizes _ _ _ le_rfl c hc
  · exact fun c hc => chunkFuel_dropLast_full _ b _ le_rfl c hc

/-- Witness for C9 at a concrete state and batch size 2. -/
theorem dataloaders_sequential_fixed_batches_witness :
    ((train_dataloader exSetupState 2).epochBatches 0 =
        (train_dataloader exSetupState 2).epochBatches 1) ∧
    ((train_dataloader exSetupState 2).epochBatches 0).flatten =
      exSetupState.train_set.subjects := by
  have h := dataloaders_sequential_fixed_batches exSetupState 2 (by omega) 0 1
  exact ⟨h.1, h.2.2.2.1⟩

/-- C10.  `prepare_data` rebuilds the subject lists from scratch on
every call: any number of consecutive calls over the same directory
contents leaves exactly the state of a single call (the subject fields
are replaced, never appended), so `prepare_data` is idempotent on the
data-module state. -/
theorem prepare_data_idempotent (d : DirTree) (s : DataModuleState) (n : Nat) :
    (prepare_data d)^[n + 1] s = prepare_data d s := by
  induction n with
  | zero => rfl
  | succ n ih =>
    rw [Function.iterate_succ_apply', ih]
    rfl

end TorchioMonai
